import Mathlib

/-!
Verification of the mbpcap serial-capture tool: a shallow embedding of the
Modbus RTU frame classifier/splitter (pkg/decoder/modbus.go), the pcap
binary writer (pkg/pcap/writer.go), and the flush/reassembly and
silence-threshold logic of main.go, together with theorems checking the
design document's claims against this embedding.

Bytes are modelled as `Nat` (the Go code only compares and adds byte
values, so no wrap-around arithmetic occurs), buffers as `List Nat`,
timestamps and durations as `Int` (nanoseconds, matching Go's
`time.Duration`), and Go's nil-vs-present distinction for byte slices
used as option values is modelled with `Option`.
-/

namespace Mbpcap

/-- Direction classifies a Modbus RTU frame as request, response or
unknown, mirroring `decoder.Direction`. -/
inductive Direction where
  | DirUnknown
  | DirRequest
  | DirResponse
  deriving DecidableEq, Repr

/-- One possible (length, direction) interpretation of bytes at a
presumed frame start, mirroring `decoder.frameCandidate`. -/
structure frameCandidate where
  length : Nat
  dir : Direction
  deriving DecidableEq, Repr

/-- A decoded Modbus RTU frame, mirroring `decoder.Frame`. -/
structure Frame where
  Data : List Nat
  Dir : Direction
  deriving DecidableEq, Repr

/-- Embedding of `decoder.frameCandidates`: the candidate frame
lengths/directions for a byte window starting at a frame boundary. -/
def frameCandidates (data : List Nat) : List frameCandidate :=
  if data.length < 2 then []
  else
    let fc := data.getD 1 0
    if 0x01 ≤ fc ∧ fc ≤ 0x04 then
      let candidates : List frameCandidate := [⟨8, Direction.DirRequest⟩]
      if 3 ≤ data.length then
        let respLen := 5 + data.getD 2 0
        if respLen ≠ 8 then candidates ++ [⟨respLen, Direction.DirResponse⟩]
        else candidates
      else candidates
    else if fc = 0x05 ∨ fc = 0x06 then [⟨8, Direction.DirUnknown⟩]
    else if fc = 0x0F ∨ fc = 0x10 then
      if data.length < 7 then []
      else [⟨9 + data.getD 6 0, Direction.DirRequest⟩, ⟨8, Direction.DirResponse⟩]
    else if 0x81 ≤ fc ∧ fc ≤ 0x90 then [⟨5, Direction.DirResponse⟩]
    else []

/-- Embedding of `decoder.FrameLen`: the first candidate's length, or -1
when the data is too short or the function code is unrecognized. -/
def FrameLen (data : List Nat) : Int :=
  match frameCandidates data with
  | [] => -1
  | c :: _ => (c.length : Int)

/-- Embedding of `decoder.ValidCRC`, the documented always-true stub. -/
def ValidCRC (_ : List Nat) : Bool :=
  true

/-- The classifier table exactly as the specification describes it
(§4.2), written from the spec's words for comparison with
`frameCandidates`. -/
def specCandidates (w : List Nat) : List frameCandidate :=
  if w.length < 2 then []
  else if 0x01 ≤ w.getD 1 0 ∧ w.getD 1 0 ≤ 0x04 then
    ⟨8, Direction.DirRequest⟩ ::
      (if 3 ≤ w.length ∧ 5 + w.getD 2 0 ≠ 8 then
        [⟨5 + w.getD 2 0, Direction.DirResponse⟩]
      else [])
  else if w.getD 1 0 = 0x05 ∨ w.getD 1 0 = 0x06 then [⟨8, Direction.DirUnknown⟩]
  else if w.getD 1 0 = 0x0F ∨ w.getD 1 0 = 0x10 then
    if w.length < 7 then []
    else [⟨9 + w.getD 6 0, Direction.DirRequest⟩, ⟨8, Direction.DirResponse⟩]
  else if 0x81 ≤ w.getD 1 0 ∧ w.getD 1 0 ≤ 0x90 then [⟨5, Direction.DirResponse⟩]
  else []

/-- Claim C1: for every byte window, `frameCandidates` returns exactly the
documented candidate table, and `FrameLen` returns the first candidate's
length (8 for function codes 0x01–0x04) or the sentinel -1 when the
candidate list is empty. -/
theorem classifier_table_correct (w : List Nat) :
    frameCandidates w = specCandidates w ∧
    FrameLen w =
      (match specCandidates w with
       | [] => (-1 : Int)
       | c :: _ => (c.length : Int)) ∧
    (2 ≤ w.length → 1 ≤ w.getD 1 0 → w.getD 1 0 ≤ 4 → FrameLen w = 8) := by
  have htab : frameCandidates w = specCandidates w := by
    simp only [frameCandidates, specCandidates]
    split_ifs <;> simp_all
  refine ⟨htab, ?_, ?_⟩
  · rw [FrameLen, htab]
  · intro hlen h1 h4
    rw [FrameLen, htab]
    simp only [specCandidates]
    split_ifs <;> simp_all <;> omega

/-- The candidate loop inside `decoder.splitFrom`: try each candidate in
table order; skip those that do not fit or fail CRC; recurse — via the
supplied recursive call `recur` — on the rest of the buffer; first
success wins. -/
def tryCandidates (recur : List Nat → List Frame → Option (List Frame))
    (data : List Nat) (acc : List Frame) :
    List frameCandidate → Option (List Frame)
  | [] => none
  | c :: rest =>
    if c.length ≤ data.length ∧ ValidCRC (data.take c.length) = true then
      match recur (data.drop c.length)
          (acc ++ [⟨data.take c.length, c.dir⟩]) with
      | some result => some result
      | none => tryCandidates recur data acc rest
    else tryCandidates recur data acc rest

/-- Embedding of `decoder.splitFrom` (the backtracking exact splitter),
with an explicit fuel argument standing for the recursion depth; the Go
recursion consumes at least one byte per recursive call, so any fuel
larger than the buffer length is enough (proved below).  Mirroring Go,
the accumulator starts as nil and the nil accumulator returned at the
end of an empty buffer is indistinguishable from the nil failure
result, so an empty accumulator at the end maps to `none`. -/
def splitFromF : Nat → List Nat → List Frame → Option (List Frame)
  | 0, _, _ => none
  | fuel + 1, data, acc =>
    if data = [] then (if acc = [] then none else some acc)
    else tryCandidates (splitFromF fuel) data acc (frameCandidates data)

/-- The toplevel call `decoder.splitFrom(data, 0, nil)` as made by the
package: the exact parse of the whole buffer, `none` meaning no clean
split. -/
def splitFrom (data : List Nat) : Option (List Frame) :=
  splitFromF (data.length + 1) data []

/-- Embedding of `decoder.SplitFrames`: exact split, or the whole
buffer as a single Unknown frame when no clean split exists. -/
def SplitFrames (data : List Nat) : List Frame :=
  match splitFrom data with
  | none => [⟨data, Direction.DirUnknown⟩]
  | some result => result

/-- The inner candidate scan of the greedy loop in
`decoder.SplitFramesPartial`: the first candidate in table order that
fits in the remaining buffer and passes CRC. -/
def firstFit (data : List Nat) : List frameCandidate → Option frameCandidate
  | [] => none
  | c :: cs =>
    if c.length ≤ data.length ∧ ValidCRC (data.take c.length) = true then some c
    else firstFit data cs

/-- The greedy loop of `decoder.SplitFramesPartial`, fuelled like
`splitFromF`: consume frames from the front, stop when no candidate
fits; unconsumed bytes become the remainder (`none` when everything was
consumed, mirroring the nil remainder in Go). -/
def greedyF (fuel : Nat) (data : List Nat) : List Frame × Option (List Nat) :=
  match fuel with
  | 0 => ([], if data = [] then none else some data)
  | f + 1 =>
    if data = [] then ([], none)
    else
      match firstFit data (frameCandidates data) with
      | none => ([], some data)
      | some c =>
        let rest := greedyF f (data.drop c.length)
        (⟨data.take c.length, c.dir⟩ :: rest.1, rest.2)

/-- Embedding of `decoder.SplitFramesPartial`: fast-path exact parse,
else the greedy scan.  (Named without the Go suffix for tooling
reasons; it is the same function.) -/
def SplitFramesPart (data : List Nat) : List Frame × Option (List Nat) :=
  match splitFrom data with
  | some result => (result, none)
  | none => greedyF (data.length + 1) data

/-- Concatenated byte contents of a list of frames. -/
def concatData : List Frame → List Nat
  | [] => []
  | f :: fs => f.Data ++ concatData fs

/-- Concatenation of a list of buffers. -/
def concatList : List (List Nat) → List Nat
  | [] => []
  | b :: bs => b ++ concatList bs

/-- A buffer is a well-formed single frame when some candidate
interpretation of it consumes it exactly (CRC being the always-true
stub). -/
def isWellFormed (F : List Nat) : Bool :=
  (frameCandidates F).any fun c => c.length == F.length

/-- Claim C3 (evaluation at the failing input): the exact splitter,
applied to a zero-length buffer, returns `none` — the nil accumulator
returned at the end is indistinguishable from the nil failure value —
and `SplitFrames` consequently wraps the empty buffer as a single
Unknown frame instead of returning the empty frame list. -/
theorem splitExact_empty_eval :
    splitFrom ([] : List Nat) = none ∧
    SplitFrames ([] : List Nat) = [⟨[], Direction.DirUnknown⟩] := by
  decide

/-- Claim C2 counterexample: one well-formed frame (function code 0x05)
followed by the garbage byte 0x00.  The exact parse fails as the claim
says, but the greedy splitter returns the garbage as the byte
remainder, not as an Unknown-direction frame: no frame in its output
carries the garbage. -/
theorem greedy_trailing_garbage_cex :
    splitFrom ([1, 5, 0, 0, 0, 0, 0, 0] ++ [0]) = none ∧
    SplitFramesPart ([1, 5, 0, 0, 0, 0, 0, 0] ++ [0]) =
      ([⟨[1, 5, 0, 0, 0, 0, 0, 0], Direction.DirUnknown⟩], some [0]) ∧
    Frame.mk [0] Direction.DirUnknown ∉
      (SplitFramesPart ([1, 5, 0, 0, 0, 0, 0, 0] ++ [0])).1 := by
  decide

/-- Claim C4 counterexample: A = 01 01 05 00 00 00 00 00 (a well-formed
8-byte request) followed by the first K = 2 bytes of the well-formed
frame B = 01 05 00 00 00 00 00 00.  The backtracking fast path
reinterprets the whole ten bytes as one Response frame of length
5 + A[2] = 10, so the result is not ([A], those K bytes): the remainder
is `none`. -/
theorem partial_split_prefix_cex :
    isWellFormed [1, 1, 5, 0, 0, 0, 0, 0] = true ∧
    isWellFormed [1, 5, 0, 0, 0, 0, 0, 0] = true ∧
    0 < 2 ∧ 2 < ([1, 5, 0, 0, 0, 0, 0, 0] : List Nat).length ∧
    SplitFramesPart
        ([1, 1, 5, 0, 0, 0, 0, 0] ++ List.take 2 [1, 5, 0, 0, 0, 0, 0, 0]) =
      ([⟨[1, 1, 5, 0, 0, 0, 0, 0, 1, 5], Direction.DirResponse⟩], none) := by
  decide

/-- Every candidate the classifier ever offers is at least 5 bytes
long, so each accepted frame strictly consumes the buffer. -/
lemma candidate_length_ge_five (data : List Nat) :
    ∀ c ∈ frameCandidates data, 5 ≤ c.length := by
  intro c hc
  obtain ⟨len, dir⟩ := c
  dsimp only
  simp only [frameCandidates] at hc
  split_ifs at hc <;>
    simp only [List.mem_append, List.mem_cons, List.not_mem_nil,
      frameCandidate.mk.injEq, or_false] at hc <;>
    casesm* _ ∨ _, _ ∧ _ <;> omega

/-- The scan `firstFit` only returns candidates from its input list. -/
lemma firstFit_mem {data : List Nat} :
    ∀ {cs : List frameCandidate} {c : frameCandidate},
      firstFit data cs = some c → c ∈ cs := by
  intro cs
  induction cs with
  | nil => intro c h; simp [firstFit] at h
  | cons c0 rest ih =>
    intro c h
    simp only [firstFit] at h
    split_ifs at h
    · simp_all
    · exact List.mem_cons_of_mem c0 (ih h)

/-- A candidate returned by `firstFit` fits in the buffer. -/
lemma firstFit_fits {data : List Nat} :
    ∀ {cs : List frameCandidate} {c : frameCandidate},
      firstFit data cs = some c → c.length ≤ data.length := by
  intro cs
  induction cs with
  | nil => intro c h; simp [firstFit] at h
  | cons c0 rest ih =>
    intro c h
    simp only [firstFit] at h
    split_ifs at h with hfit
    · cases h; exact hfit.1
    · exact ih h

lemma concatData_append (a b : List Frame) :
    concatData (a ++ b) = concatData a ++ concatData b := by
  induction a with
  | nil => rfl
  | cons f fs ih => simp [concatData, ih]

/-- A concatenation of nonempty buffers has at least one byte per
buffer. -/
lemma concatList_length_ge (FS : List (List Nat))
    (h : ∀ F ∈ FS, 1 ≤ F.length) : FS.length ≤ (concatList FS).length := by
  induction FS with
  | nil => simp [concatList]
  | cons F rest ih =>
    have h1 := h F (List.mem_cons_self F rest)
    have h2 := ih fun F hF => h F (List.mem_cons_of_mem _ hF)
    simp only [concatList, List.length_append, List.length_cons]
    omega

/-- The candidate loop gives equal results for two recursive calls that
agree on every candidate continuation. -/
lemma tryCandidates_congr {r1 r2 : List Nat → List Frame → Option (List Frame)}
    (data : List Nat) (acc : List Frame) :
    ∀ cs : List frameCandidate,
      (∀ c ∈ cs,
        r1 (data.drop c.length) (acc ++ [⟨data.take c.length, c.dir⟩]) =
        r2 (data.drop c.length) (acc ++ [⟨data.take c.length, c.dir⟩])) →
      tryCandidates r1 data acc cs = tryCandidates r2 data acc cs := by
  intro cs
  induction cs with
  | nil => intro _; rfl
  | cons c rest ih =>
    intro h
    by_cases hfit : c.length ≤ data.length ∧ ValidCRC (data.take c.length) = true
    · simp only [tryCandidates, if_pos hfit, h c (List.mem_cons_self c rest)]
      rcases hsp : r2 (data.drop c.length) (acc ++ [⟨data.take c.length, c.dir⟩])
        with _ | res
      · rw [hsp]
        exact ih fun c hc => h c (List.mem_cons_of_mem _ hc)
      · rw [hsp]
    · simp only [tryCandidates, if_neg hfit]
      exact ih fun c hc => h c (List.mem_cons_of_mem _ hc)

/-- Fuel-independence of the exact splitter: any two fuels larger than
the buffer length give the same result, so the Go recursion (which
carries no fuel) terminates with this common value. -/
lemma splitFromF_stable :
    ∀ n data f g acc, data.length ≤ n → data.length < f → data.length < g →
      splitFromF f data acc = splitFromF g data acc := by
  intro n
  induction n with
  | zero =>
    intro data f g acc hn hf hg
    obtain rfl : data = [] := List.length_eq_zero.mp (Nat.le_zero.mp hn)
    match f, g, hf, hg with
    | f + 1, g + 1, _, _ => simp [splitFromF]
  | succ n ih =>
    intro data f g acc hn hf hg
    match f, g, hf, hg with
    | f + 1, g + 1, hf, hg =>
      by_cases hd : data = []
      · simp [splitFromF, hd]
      · simp only [splitFromF, if_neg hd]
        apply tryCandidates_congr data acc (frameCandidates data)
        intro c hc
        have h5 := candidate_length_ge_five data c hc
        have hpos : 0 < data.length := List.length_pos.mpr hd
        refine ih _ f g _ ?_ ?_ ?_ <;> simp only [List.length_drop] <;> omega

/-- Any sufficient fuel computes `splitFrom`. -/
lemma splitFromF_eq_splitFrom (f : Nat) (data : List Nat)
    (h : data.length < f) : splitFromF f data [] = splitFrom data :=
  splitFromF_stable data.length data f (data.length + 1) [] le_rfl h
    (Nat.lt_succ_self _)

/-- Fuel-independence of the greedy splitter. -/
lemma greedyF_stable :
    ∀ n data f g, data.length ≤ n → data.length < f → data.length < g →
      greedyF f data = greedyF g data := by
  intro n
  induction n with
  | zero =>
    intro data f g hn hf hg
    obtain rfl : data = [] := List.length_eq_zero.mp (Nat.le_zero.mp hn)
    match f, g, hf, hg with
    | f + 1, g + 1, _, _ => simp [greedyF]
  | succ n ih =>
    intro data f g hn hf hg
    match f, g, hf, hg with
    | f + 1, g + 1, hf, hg =>
      by_cases hd : data = []
      · simp [greedyF, hd]
      · simp only [greedyF, if_neg hd]
        rcases hff : firstFit data (frameCandidates data) with _ | c
        · rfl
        · have h5 := candidate_length_ge_five data c (firstFit_mem hff)
          have hpos : 0 < data.length := List.length_pos.mpr hd
          have heq : greedyF f (data.drop c.length) = greedyF g (data.drop c.length) := by
            refine ih _ f g ?_ ?_ ?_ <;> simp only [List.length_drop] <;> omega
          simp [heq]

/-- Soundness of the candidate loop: a successful split concatenates
back to the accumulated bytes followed by the buffer. -/
lemma tryCandidates_sound {recur : List Nat → List Frame → Option (List Frame)}
    (data : List Nat) (acc : List Frame)
    (H : ∀ d a r, recur d a = some r → concatData r = concatData a ++ d) :
    ∀ cs r, tryCandidates recur data acc cs = some r →
      concatData r = concatData acc ++ data := by
  intro cs
  induction cs with
  | nil => intro r h; simp [tryCandidates] at h
  | cons c rest ih =>
    intro r h
    by_cases hfit : c.length ≤ data.length ∧ ValidCRC (data.take c.length) = true
    · simp only [tryCandidates, if_pos hfit] at h
      rcases hsp : recur (data.drop c.length)
          (acc ++ [⟨data.take c.length, c.dir⟩]) with _ | res
      · rw [hsp] at h
        exact ih r h
      · rw [hsp] at h
        obtain rfl : res = r := by
          simpa using h
        have hcr := H _ _ _ hsp
        rw [hcr, concatData_append]
        simp [concatData, List.append_assoc, List.take_append_drop]
    · simp only [tryCandidates, if_neg hfit] at h
      exact ih r h

/-- Soundness of the exact splitter: a successful split concatenates
back to the accumulated bytes followed by the input buffer. -/
lemma splitFromF_sound :
    ∀ f data acc r, splitFromF f data acc = some r →
      concatData r = concatData acc ++ data := by
  intro f
  induction f with
  | zero => intro data acc r h; simp [splitFromF] at h
  | succ f ih =>
    intro data acc r h
    by_cases hd : data = []
    · subst hd
      rw [show splitFromF (f + 1) [] acc =
          (if acc = [] then none else some acc) from rfl] at h
      by_cases ha : acc = []
      · rw [if_pos ha] at h
        exact Option.noConfusion h
      · rw [if_neg ha] at h
        obtain rfl : acc = r := Option.some.inj h
        simp [concatData]
    · simp only [splitFromF, if_neg hd] at h
      exact tryCandidates_sound data acc ih _ r h

/-- Soundness of the greedy splitter: frames plus remainder concatenate
back to the input, and a present remainder is never the empty byte
string. -/
lemma greedyF_sound :
    ∀ f data,
      concatData (greedyF f data).1 ++ ((greedyF f data).2.getD []) = data ∧
      ∀ x, (greedyF f data).2 = some x → x ≠ [] := by
  intro f
  induction f with
  | zero =>
    intro data
    by_cases hd : data = [] <;> simp [greedyF, hd, concatData]
  | succ f ih =>
    intro data
    by_cases hd : data = []
    · simp [greedyF, hd, concatData]
    · simp only [greedyF, if_neg hd]
      rcases hff : firstFit data (frameCandidates data) with _ | c
      · simp [concatData, hd]
      · obtain ⟨ih1, ih2⟩ := ih (data.drop c.length)
        constructor
        · simp only [concatData, List.append_assoc, ih1, List.take_append_drop]
        · exact ih2

/-- A present remainder of `SplitFramesPart` is never the empty byte
string: `none` is the only encoding of "all bytes consumed". -/
lemma SplitFramesPart_rem_ne_nil (data : List Nat) :
    ∀ x, (SplitFramesPart data).2 = some x → x ≠ [] := by
  intro x h
  simp only [SplitFramesPart] at h
  rcases hsp : splitFrom data with _ | r
  · rw [hsp] at h
    exact (greedyF_sound _ data).2 x h
  · rw [hsp] at h
    simp at h

/-- Claim C9: conservation of bytes by the splitters.  Concatenating
the frames returned by `SplitFrames` reproduces the input exactly; for
the greedy splitter the frames followed by the remainder reproduce the
input exactly, and the remainder is absent (nil) if and only if the
frames consume every input byte. -/
theorem splitter_byte_conservation :
    (∀ data, concatData (SplitFrames data) = data) ∧
    (∀ data,
      concatData (SplitFramesPart data).1 ++ ((SplitFramesPart data).2.getD []) =
        data) ∧
    (∀ data, (SplitFramesPart data).2 = none ↔
      concatData (SplitFramesPart data).1 = data) := by
  have hpart : ∀ data,
      concatData (SplitFramesPart data).1 ++ ((SplitFramesPart data).2.getD []) =
        data := by
    intro data
    simp only [SplitFramesPart]
    rcases hsp : splitFrom data with _ | r
    · exact (greedyF_sound _ data).1
    · have := splitFromF_sound _ _ _ _ hsp
      simpa [concatData] using this
  refine ⟨?_, hpart, ?_⟩
  · intro data
    simp only [SplitFrames]
    rcases hsp : splitFrom data with _ | r
    · simp [concatData]
    · have := splitFromF_sound _ _ _ _ hsp
      simpa [concatData] using this
  · intro data
    constructor
    · intro h
      have := hpart data
      rw [h] at this
      simpa using this
    · intro h
      rcases hrem : (SplitFramesPart data).2 with _ | x
      · rfl
      · exfalso
        have hx : x ≠ [] := SplitFramesPart_rem_ne_nil data x hrem
        have hcons := hpart data
        rw [hrem, h] at hcons
        simp only [Option.getD_some] at hcons
        exact hx (by
          have : data ++ x = data ++ [] := by simpa using hcons
          exact List.append_cancel_left this)

/-- Frames accepted by the candidate loop are each at least 5 bytes
long (given that the accumulated ones are). -/
lemma tryCandidates_frames_len
    {recur : List Nat → List Frame → Option (List Frame)}
    (data : List Nat) (acc : List Frame)
    (H : ∀ d a r, (∀ fr ∈ a, 5 ≤ fr.Data.length) → recur d a = some r →
      ∀ fr ∈ r, 5 ≤ fr.Data.length)
    (hacc : ∀ fr ∈ acc, 5 ≤ fr.Data.length) :
    ∀ cs, (∀ c ∈ cs, 5 ≤ c.length) →
      ∀ r, tryCandidates recur data acc cs = some r →
        ∀ fr ∈ r, 5 ≤ fr.Data.length := by
  intro cs
  induction cs with
  | nil => intro _ r h; simp [tryCandidates] at h
  | cons c rest ih =>
    intro hcs r h
    by_cases hfit : c.length ≤ data.length ∧ ValidCRC (data.take c.length) = true
    · simp only [tryCandidates, if_pos hfit] at h
      rcases hsp : recur (data.drop c.length)
          (acc ++ [⟨data.take c.length, c.dir⟩]) with _ | res
      · rw [hsp] at h
        exact ih (fun c hc => hcs c (List.mem_cons_of_mem _ hc)) r h
      · rw [hsp] at h
        obtain rfl : res = r := by simpa using h
        refine H _ _ _ ?_ hsp
        intro fr hfr
        rcases List.mem_append.mp hfr with hin | hin
        · exact hacc fr hin
        · have : fr = ⟨data.take c.length, c.dir⟩ := by simpa using hin
          subst this
          have h5 := hcs c (List.mem_cons_self c rest)
          simp only [List.length_take]
          omega
    · simp only [tryCandidates, if_neg hfit] at h
      exact ih (fun c hc => hcs c (List.mem_cons_of_mem _ hc)) r h

/-- Frames accepted by the exact splitter are each at least 5 bytes
long. -/
lemma splitFromF_frames_len :
    ∀ f data acc r, (∀ fr ∈ acc, 5 ≤ fr.Data.length) →
      splitFromF f data acc = some r → ∀ fr ∈ r, 5 ≤ fr.Data.length := by
  intro f
  induction f with
  | zero => intro data acc r _ h; simp [splitFromF] at h
  | succ f ih =>
    intro data acc r hacc h
    by_cases hd : data = []
    · subst hd
      rw [show splitFromF (f + 1) [] acc =
          (if acc = [] then none else some acc) from rfl] at h
      by_cases ha : acc = []
      · rw [if_pos ha] at h
        exact Option.noConfusion h
      · rw [if_neg ha] at h
        obtain rfl : acc = r := Option.some.inj h
        exact hacc
    · simp only [splitFromF, if_neg hd] at h
      exact tryCandidates_frames_len data acc ih hacc (frameCandidates data)
        (candidate_length_ge_five data) r h

/-- Frames accepted by the greedy splitter are each at least 5 bytes
long. -/
lemma greedyF_frames_len :
    ∀ f data fr, fr ∈ (greedyF f data).1 → 5 ≤ fr.Data.length := by
  intro f
  induction f with
  | zero => intro data fr h; simp [greedyF] at h
  | succ f ih =>
    intro data fr h
    by_cases hd : data = []
    · simp [greedyF, hd] at h
    · simp only [greedyF, if_neg hd] at h
      rcases hff : firstFit data (frameCandidates data) with _ | c
      · rw [hff] at h
        simp at h
      · rw [hff] at h
        simp only [List.mem_cons] at h
        rcases h with rfl | hin
        · have h5 := candidate_length_ge_five data c (firstFit_mem hff)
          have hle := firstFit_fits hff
          simp only [List.length_take]
          omega
        · exact ih _ fr hin

/-- Claim C10: every candidate the classifier produces is at least 5
bytes long; thus every frame accepted by either splitter consumes at
least 5 bytes, and both splitters are fuel-independent once the fuel
exceeds the buffer length — the Go recursion and loop terminate on any
finite input with this common value. -/
theorem splitter_termination :
    (∀ w, ∀ c ∈ frameCandidates w, 5 ≤ c.length) ∧
    (∀ data acc f g, data.length < f → data.length < g →
      splitFromF f data acc = splitFromF g data acc) ∧
    (∀ data f g, data.length < f → data.length < g →
      greedyF f data = greedyF g data) ∧
    (∀ data, ∀ fr ∈ (SplitFramesPart data).1, 5 ≤ fr.Data.length) := by
  refine ⟨candidate_length_ge_five, ?_, ?_, ?_⟩
  · intro data acc f g hf hg
    exact splitFromF_stable data.length data f g acc le_rfl hf hg
  · intro data f g hf hg
    exact greedyF_stable data.length data f g le_rfl hf hg
  · intro data fr hfr
    simp only [SplitFramesPart] at hfr
    rcases hsp : splitFrom data with _ | r
    · rw [hsp] at hfr
      exact greedyF_frames_len _ data fr hfr
    · rw [hsp] at hfr
      simp only at hfr
      exact splitFromF_frames_len _ _ _ _ (by simp) hsp fr hfr

/-- An 8-byte frame with function code 0x05 or 0x06 is unambiguous: at
the head of any buffer the classifier offers exactly one candidate, the
8-byte Unknown-direction one. -/
lemma unamb_candidates (F rest : List Nat) (h8 : F.length = 8)
    (h56 : F.getD 1 0 = 5 ∨ F.getD 1 0 = 6) :
    frameCandidates (F ++ rest) = [⟨8, Direction.DirUnknown⟩] := by
  have hlen : (F ++ rest).length = 8 + rest.length := by simp [h8]
  have hget : (F ++ rest).getD 1 0 = F.getD 1 0 :=
    List.getD_append F rest 0 1 (by omega)
  simp only [frameCandidates, hget]
  rcases h56 with h | h <;> rw [h] <;> split_ifs <;>
    first
    | rfl
    | omega

/-- If no candidate fits the buffer, the backtracking candidate loop
fails outright, whatever the recursive call. -/
lemma tryCandidates_none_of_firstFit_none
    {recur : List Nat → List Frame → Option (List Frame)}
    (data : List Nat) (acc : List Frame) :
    ∀ cs, firstFit data cs = none → tryCandidates recur data acc cs = none := by
  intro cs
  induction cs with
  | nil => intro _; rfl
  | cons c rest ih =>
    intro h
    by_cases hfit : c.length ≤ data.length ∧ ValidCRC (data.take c.length) = true
    · rw [show firstFit data (c :: rest) = some c from by
        simp only [firstFit, if_pos hfit]] at h
      exact Option.noConfusion h
    · simp only [firstFit, if_neg hfit] at h
      simp only [tryCandidates, if_neg hfit]
      exact ih h

/-- The exact splitter fails on a nonempty buffer none of whose
candidates fit, whatever the fuel and accumulator. -/
lemma splitFromF_garbage_none (f : Nat) (G : List Nat) (acc : List Frame)
    (hG : G ≠ []) (hfit : firstFit G (frameCandidates G) = none) :
    splitFromF f G acc = none := by
  match f with
  | 0 => rfl
  | f + 1 =>
    simp only [splitFromF, if_neg hG]
    exact tryCandidates_none_of_firstFit_none G acc _ hfit

/-- The exact splitter fails on any chain of unambiguous 8-byte frames
followed by garbage that no candidate fits: the search is forced down
the chain and dies at the garbage. -/
lemma splitFromF_chain_none :
    ∀ FS : List (List Nat), ∀ f acc (G : List Nat),
      (∀ F ∈ FS, F.length = 8 ∧ (F.getD 1 0 = 5 ∨ F.getD 1 0 = 6)) →
      G ≠ [] → firstFit G (frameCandidates G) = none →
      splitFromF f (concatList FS ++ G) acc = none := by
  intro FS
  induction FS with
  | nil =>
    intro f acc G _ hG hfit
    simpa [concatList] using splitFromF_garbage_none f G acc hG hfit
  | cons F FS ih =>
    intro f acc G hFS hG hfit
    obtain ⟨h8, h56⟩ := hFS F (List.mem_cons_self F FS)
    have hcand : frameCandidates (F ++ (concatList FS ++ G)) =
        [⟨8, Direction.DirUnknown⟩] := unamb_candidates F _ h8 h56
    match f with
    | 0 => rfl
    | f + 1 =>
      have hne : F ++ (concatList FS ++ G) ≠ [] := by
        intro hcontra
        have : (F ++ (concatList FS ++ G)).length = 0 := by rw [hcontra]; rfl
        simp [h8] at this
      have hdata : concatList (F :: FS) ++ G = F ++ (concatList FS ++ G) := by
        simp [concatList, List.append_assoc]
      rw [hdata]
      simp only [splitFromF, if_neg hne, hcand]
      simp only [tryCandidates]
      have hfits : (8 : Nat) ≤ (F ++ (concatList FS ++ G)).length ∧
          ValidCRC ((F ++ (concatList FS ++ G)).take 8) = true :=
        ⟨by simp [h8], rfl⟩
      rw [if_pos hfits]
      have hdrop : (F ++ (concatList FS ++ G)).drop 8 = concatList FS ++ G := by
        rw [← h8]
        exact List.drop_left F _
      rw [hdrop,
        ih f _ G (fun F hF => hFS F (List.mem_cons_of_mem _ hF)) hG hfit]

/-- The greedy splitter walks a chain of unambiguous 8-byte frames one
by one and stops at garbage that no candidate fits, returning it as the
remainder. -/
lemma greedyF_chain :
    ∀ FS : List (List Nat), ∀ f (G : List Nat),
      (∀ F ∈ FS, F.length = 8 ∧ (F.getD 1 0 = 5 ∨ F.getD 1 0 = 6)) →
      G ≠ [] → firstFit G (frameCandidates G) = none →
      FS.length < f →
      greedyF f (concatList FS ++ G) =
        (FS.map fun F => Frame.mk F Direction.DirUnknown, some G) := by
  intro FS
  induction FS with
  | nil =>
    intro f G _ hG hfit hf
    match f, hf with
    | f + 1, _ =>
      simp only [concatList, List.nil_append, greedyF, if_neg hG, hfit,
        List.map_nil]
  | cons F FS ih =>
    intro f G hFS hG hfit hf
    obtain ⟨h8, h56⟩ := hFS F (List.mem_cons_self F FS)
    have hcand : frameCandidates (F ++ (concatList FS ++ G)) =
        [⟨8, Direction.DirUnknown⟩] := unamb_candidates F _ h8 h56
    match f, hf with
    | f + 1, hf =>
      have hne : F ++ (concatList FS ++ G) ≠ [] := by
        intro hcontra
        have : (F ++ (concatList FS ++ G)).length = 0 := by rw [hcontra]; rfl
        simp [h8] at this
      have hdata : concatList (F :: FS) ++ G = F ++ (concatList FS ++ G) := by
        simp [concatList, List.append_assoc]
      rw [hdata]
      have hfits : (8 : Nat) ≤ (F ++ (concatList FS ++ G)).length ∧
          ValidCRC ((F ++ (concatList FS ++ G)).take 8) = true :=
        ⟨by simp [h8], rfl⟩
      have hff : firstFit (F ++ (concatList FS ++ G))
          (frameCandidates (F ++ (concatList FS ++ G))) =
          some ⟨8, Direction.DirUnknown⟩ := by
        rw [hcand]
        simp only [firstFit, if_pos hfits]
      simp only [greedyF, if_neg hne, hff]
      have htake : (F ++ (concatList FS ++ G)).take 8 = F := by
        rw [← h8]
        exact List.take_left F _
      have hdrop : (F ++ (concatList FS ++ G)).drop 8 = concatList FS ++ G := by
        rw [← h8]
        exact List.drop_left F _
      rw [htake, hdrop,
        ih f G (fun F hF => hFS F (List.mem_cons_of_mem _ hF)) hG hfit
          (by simpa using hf)]
      simp

/-- Claim C2 (amended): for a concatenation of well-formed *unambiguous*
frames (8-byte frames with function code 0x05/0x06, for which the
classifier offers a single candidate, so the backtracking search cannot
reinterpret the boundaries) followed by trailing garbage that no
candidate interpretation fits, the exact parse returns none and the
greedy splitter returns the frames and the garbage as the byte
remainder — not as an Unknown-direction frame. -/
theorem greedy_trailing_garbage_amended (FS : List (List Nat)) (G : List Nat)
    (hFS : ∀ F ∈ FS, F.length = 8 ∧ (F.getD 1 0 = 5 ∨ F.getD 1 0 = 6))
    (hG : G ≠ []) (hfit : firstFit G (frameCandidates G) = none) :
    splitFrom (concatList FS ++ G) = none ∧
    SplitFramesPart (concatList FS ++ G) =
      (FS.map fun F => Frame.mk F Direction.DirUnknown, some G) := by
  have hnone : splitFrom (concatList FS ++ G) = none :=
    splitFromF_chain_none FS _ [] G hFS hG hfit
  refine ⟨hnone, ?_⟩
  rw [SplitFramesPart, hnone]
  apply greedyF_chain FS _ G hFS hG hfit
  have hFS1 : ∀ F ∈ FS, 1 ≤ F.length := fun F hF => by
    have := (hFS F hF).1
    omega
  have := concatList_length_ge FS hFS1
  simp only [List.length_append]
  omega

/-- Witness for the amended claim C2 at a concrete chain: two
unambiguous frames followed by the two garbage bytes 02 03 (too short
for the 8-byte request candidate they announce). -/
theorem greedy_trailing_garbage_amended_witness :
    ((∀ F ∈ [[1, 5, 0, 0, 0, 0, 0, 0], [9, 6, 1, 2, 3, 4, 5, 6]],
        F.length = 8 ∧ (F.getD 1 0 = 5 ∨ F.getD 1 0 = 6)) ∧
      ([2, 3] : List Nat) ≠ [] ∧
      firstFit [2, 3] (frameCandidates [2, 3]) = none) ∧
    (splitFrom
        (concatList [[1, 5, 0, 0, 0, 0, 0, 0], [9, 6, 1, 2, 3, 4, 5, 6]] ++
          [2, 3]) = none ∧
      SplitFramesPart
          (concatList [[1, 5, 0, 0, 0, 0, 0, 0], [9, 6, 1, 2, 3, 4, 5, 6]] ++
            [2, 3]) =
        ([Frame.mk [1, 5, 0, 0, 0, 0, 0, 0] Direction.DirUnknown,
          Frame.mk [9, 6, 1, 2, 3, 4, 5, 6] Direction.DirUnknown],
          some [2, 3])) :=
  ⟨⟨by decide, by decide, by decide⟩,
    greedy_trailing_garbage_amended
      [[1, 5, 0, 0, 0, 0, 0, 0], [9, 6, 1, 2, 3, 4, 5, 6]] [2, 3]
      (by decide) (by decide) (by decide)⟩

/-- Claim C4 (amended): for an unambiguous 8-byte frame A (function
code 0x05/0x06) and a well-formed frame B whose first K bytes
(0 < K < len B) admit no candidate that fits within them, the greedy
splitter returns exactly [A] and a remainder byte-for-byte equal to
those K bytes.  (Without the unambiguity and no-fitting-candidate
restrictions the statement is false: the backtracking fast path may
reinterpret the boundary and absorb the K bytes.) -/
theorem partial_split_prefix_amended (A B : List Nat) (K : Nat)
    (hA8 : A.length = 8) (hA56 : A.getD 1 0 = 5 ∨ A.getD 1 0 = 6)
    (hB : isWellFormed B = true)
    (hK0 : 0 < K) (hKB : K < B.length)
    (hfit : firstFit (B.take K) (frameCandidates (B.take K)) = none) :
    SplitFramesPart (A ++ B.take K) =
      ([Frame.mk A Direction.DirUnknown], some (B.take K)) := by
  have hGlen : (B.take K).length = K := by
    simp only [List.length_take]
    omega
  have hGne : B.take K ≠ [] := by
    intro hcontra
    rw [hcontra] at hGlen
    simp at hGlen
    omega
  have hFS : ∀ F ∈ [A], F.length = 8 ∧ (F.getD 1 0 = 5 ∨ F.getD 1 0 = 6) := by
    intro F hF
    rw [List.mem_singleton.mp hF]
    exact ⟨hA8, hA56⟩
  have hnone : splitFrom (concatList [A] ++ B.take K) = none :=
    splitFromF_chain_none [A] _ [] (B.take K) hFS hGne hfit
  have hgreedy := greedyF_chain [A] ((concatList [A] ++ B.take K).length + 1)
    (B.take K) hFS hGne hfit
    (by simp [concatList, hA8])
  have hcl : concatList [A] = A := by simp [concatList]
  rw [hcl] at hnone hgreedy
  rw [SplitFramesPart, hnone, hgreedy]
  simp

/-- Witness for the amended claim C4: A = 01 05 00 00 00 00 00 00,
B the 7-byte response 02 03 02 02 BC FC 95, K = 2. -/
theorem partial_split_prefix_amended_witness :
    (([1, 5, 0, 0, 0, 0, 0, 0] : List Nat).length = 8 ∧
      (([1, 5, 0, 0, 0, 0, 0, 0] : List Nat).getD 1 0 = 5 ∨
        ([1, 5, 0, 0, 0, 0, 0, 0] : List Nat).getD 1 0 = 6) ∧
      isWellFormed [2, 3, 2, 2, 188, 252, 149] = true ∧
      0 < 2 ∧ 2 < ([2, 3, 2, 2, 188, 252, 149] : List Nat).length ∧
      firstFit (List.take 2 [2, 3, 2, 2, 188, 252, 149])
        (frameCandidates (List.take 2 [2, 3, 2, 2, 188, 252, 149])) = none) ∧
    SplitFramesPart
        ([1, 5, 0, 0, 0, 0, 0, 0] ++ List.take 2 [2, 3, 2, 2, 188, 252, 149]) =
      ([Frame.mk [1, 5, 0, 0, 0, 0, 0, 0] Direction.DirUnknown],
        some (List.take 2 [2, 3, 2, 2, 188, 252, 149])) :=
  ⟨⟨by decide, by decide, by decide, by decide, by decide, by decide⟩,
    partial_split_prefix_amended [1, 5, 0, 0, 0, 0, 0, 0]
      [2, 3, 2, 2, 188, 252, 149] 2 (by decide) (by decide) (by decide)
      (by decide) (by decide) (by decide)⟩

/-- Serialization of a 32-bit word (value already reduced mod 2^32)
into four bytes: `binary.Write`'s encoding of a `uint32` in the chosen
byte order (`big = true` for `binary.BigEndian`). -/
def putU32 (big : Bool) (v : Nat) : List Nat :=
  if big then
    [v / 16777216 % 256, v / 65536 % 256, v / 256 % 256, v % 256]
  else
    [v % 256, v / 256 % 256, v / 65536 % 256, v / 16777216 % 256]

/-- Serialization of a 16-bit word into two bytes in the chosen byte
order. -/
def putU16 (big : Bool) (v : Nat) : List Nat :=
  if big then [v / 256 % 256, v % 256] else [v % 256, v / 256 % 256]

/-- Decoding of four bytes as a 32-bit word in the chosen byte order
(0 on any other shape). -/
def readU32 (big : Bool) (bs : List Nat) : Nat :=
  match big, bs with
  | true, [b3, b2, b1, b0] => ((b3 * 256 + b2) * 256 + b1) * 256 + b0
  | false, [b0, b1, b2, b3] => ((b3 * 256 + b2) * 256 + b1) * 256 + b0
  | _, _ => 0

/-- Decoding of two bytes as a 16-bit word in the chosen byte order. -/
def readU16 (big : Bool) (bs : List Nat) : Nat :=
  match big, bs with
  | true, [b1, b0] => b1 * 256 + b0
  | false, [b0, b1] => b1 * 256 + b0
  | _, _ => 0

/-- Go's conversion of a signed 64-bit value to `uint32`: the low 32
bits, i.e. the value mod 2^32 (nonnegative). -/
def toU32 (i : Int) : Nat :=
  (i % 4294967296).toNat

/-- Constant `pcap.DLTUser0`: link type for untagged raw payload. -/
def DLTUser0 : Nat := 147

/-- Constant `pcap.DLTRTACSer`: link type for protocol-tagged payload. -/
def DLTRTACSer : Nat := 250

/-- The 24 bytes `pcap.NewWriter` writes: magic, version 2.4, zone 0,
sigfigs 0, snaplen 65535 and the link type, each field in the selected
byte order (`ThisZone` is the int32 zero, so its four bytes coincide
with the uint32 encoding of 0). -/
def NewWriterHeader (big : Bool) (dlt : Nat) : List Nat :=
  putU32 big 0xa1b2c3d4 ++ putU16 big 2 ++ putU16 big 4 ++
    putU32 big 0 ++ putU32 big 0 ++ putU32 big 65535 ++
    putU32 big (dlt % 4294967296)

/-- The bytes `pcap.Writer.WritePacket` writes for one record: the
16-byte record header — seconds, microseconds, captured length,
original length, all as uint32 in the writer's byte order — followed by
the payload unmodified.  `tsUnix` and `tsNsec` are the timestamp's Unix
seconds and nanosecond component. -/
def WritePacket (big : Bool) (tsUnix : Int) (tsNsec : Nat)
    (data : List Nat) : List Nat :=
  putU32 big (toU32 tsUnix) ++ putU32 big (tsNsec / 1000 % 4294967296) ++
    putU32 big (data.length % 4294967296) ++
    putU32 big (data.length % 4294967296) ++ data

lemma readU32_putU32 (big : Bool) (v : Nat) (h : v < 4294967296) :
    readU32 big (putU32 big v) = v := by
  cases big <;> simp [putU32, readU32] <;> omega

lemma readU16_putU16 (big : Bool) (v : Nat) (h : v < 65536) :
    readU16 big (putU16 big v) = v := by
  cases big <;> simp [putU16, readU16] <;> omega

/-- Claim C7: `NewWriter` writes exactly 24 bytes in the selected byte
order — magic 0xa1b2c3d4, version major 2, version minor 4, timezone 0,
accuracy 0, snaplen 65535, and the given link tag — and the link-type
constants are 147 (untagged) and 250 (protocol-tagged). -/
theorem global_header_layout (big : Bool) (dlt : Nat)
    (hdlt : dlt < 4294967296) :
    (NewWriterHeader big dlt).length = 24 ∧
    readU32 big ((NewWriterHeader big dlt).take 4) = 0xa1b2c3d4 ∧
    readU16 big (((NewWriterHeader big dlt).drop 4).take 2) = 2 ∧
    readU16 big (((NewWriterHeader big dlt).drop 6).take 2) = 4 ∧
    readU32 big (((NewWriterHeader big dlt).drop 8).take 4) = 0 ∧
    readU32 big (((NewWriterHeader big dlt).drop 12).take 4) = 0 ∧
    readU32 big (((NewWriterHeader big dlt).drop 16).take 4) = 65535 ∧
    readU32 big (((NewWriterHeader big dlt).drop 20).take 4) = dlt ∧
    DLTUser0 = 147 ∧ DLTRTACSer = 250 := by
  have hmod : dlt % 4294967296 = dlt := Nat.mod_eq_of_lt hdlt
  refine ⟨?_, ?_, ?_, ?_, ?_, ?_, ?_, ?_, rfl, rfl⟩ <;>
    cases big <;>
    simp [NewWriterHeader, putU32, putU16, hmod, readU32, readU16] <;>
    omega

/-- Witness for claim C7 at the little-endian order and the untagged
link type 147. -/
theorem global_header_layout_witness :
    DLTUser0 < 4294967296 ∧
    ((NewWriterHeader false DLTUser0).length = 24 ∧
      readU32 false ((NewWriterHeader false DLTUser0).take 4) = 0xa1b2c3d4 ∧
      readU16 false (((NewWriterHeader false DLTUser0).drop 4).take 2) = 2 ∧
      readU16 false (((NewWriterHeader false DLTUser0).drop 6).take 2) = 4 ∧
      readU32 false (((NewWriterHeader false DLTUser0).drop 8).take 4) = 0 ∧
      readU32 false (((NewWriterHeader false DLTUser0).drop 12).take 4) = 0 ∧
      readU32 false (((NewWriterHeader false DLTUser0).drop 16).take 4) = 65535 ∧
      readU32 false (((NewWriterHeader false DLTUser0).drop 20).take 4) = DLTUser0 ∧
      DLTUser0 = 147 ∧ DLTRTACSer = 250) :=
  ⟨by decide, global_header_layout false DLTUser0 (by decide)⟩

/-- Claim C6: each record is a 16-byte header — 32-bit seconds,
microseconds, captured length, original length in the writer's byte
order — followed by the payload unmodified; captured and original
length both equal the payload's byte length (no truncation, regardless
of the 65535 snaplen in the global header). -/
theorem record_header_layout (big : Bool) (tsUnix : Int) (tsNsec : Nat)
    (data : List Nat) (hlen : data.length < 4294967296) :
    (WritePacket big tsUnix tsNsec data).length = 16 + data.length ∧
    readU32 big ((WritePacket big tsUnix tsNsec data).take 4) = toU32 tsUnix ∧
    readU32 big (((WritePacket big tsUnix tsNsec data).drop 4).take 4) =
      tsNsec / 1000 % 4294967296 ∧
    readU32 big (((WritePacket big tsUnix tsNsec data).drop 8).take 4) =
      data.length ∧
    readU32 big (((WritePacket big tsUnix tsNsec data).drop 12).take 4) =
      data.length ∧
    (WritePacket big tsUnix tsNsec data).drop 16 = data := by
  have hmod : data.length % 4294967296 = data.length := Nat.mod_eq_of_lt hlen
  have hu : toU32 tsUnix < 4294967296 := by
    have h0 : (0 : Int) ≤ tsUnix % 4294967296 := Int.emod_nonneg tsUnix (by norm_num)
    have h1 : tsUnix % 4294967296 < 4294967296 := Int.emod_lt_of_pos tsUnix (by norm_num)
    simp only [toU32]
    omega
  refine ⟨?_, ?_, ?_, ?_, ?_, ?_⟩ <;>
    cases big <;>
    simp [WritePacket, putU32, hmod, readU32] <;>
    omega

/-- Witness for claim C6 at a concrete record: little-endian order,
timestamp 1700000000.000123, 3-byte payload. -/
theorem record_header_layout_witness :
    (([7, 8, 9] : List Nat).length < 4294967296) ∧
    ((WritePacket false 1700000000 123000 [7, 8, 9]).length = 16 + 3 ∧
      readU32 false ((WritePacket false 1700000000 123000 [7, 8, 9]).take 4) =
        toU32 1700000000 ∧
      readU32 false
          (((WritePacket false 1700000000 123000 [7, 8, 9]).drop 4).take 4) =
        123000 / 1000 % 4294967296 ∧
      readU32 false
          (((WritePacket false 1700000000 123000 [7, 8, 9]).drop 8).take 4) =
        ([7, 8, 9] : List Nat).length ∧
      readU32 false
          (((WritePacket false 1700000000 123000 [7, 8, 9]).drop 12).take 4) =
        ([7, 8, 9] : List Nat).length ∧
      (WritePacket false 1700000000 123000 [7, 8, 9]).drop 16 = [7, 8, 9]) :=
  ⟨by decide, by
    have h := record_header_layout false 1700000000 123000 [7, 8, 9] (by decide)
    simpa using h⟩

/-- Result of one Modbus-mode flush in `main.go`: the frames written
(the unparseable fallback blob appearing as a single Unknown frame),
the base timestamp used for the records, and the carried-over
remainder state. -/
structure FlushOut where
  frames : List Frame
  baseTime : Int
  newExtra : Option (List Nat)
  newExtraTime : Int
  deriving DecidableEq, Repr

/-- Embedding of the Modbus-mode branch of `flush` in `main.go`.
Timestamps are integers (nanoseconds); `wt n` stands for the computed
wire time of `n` parsed bytes (the float arithmetic the Go code uses
for it is irrelevant to the control flow verified here).  `prevExtra`
and `prevExtraTime` are the held RemainderState, `packetBuf` the new
buffer and `firstByteTime` its first-byte timestamp. -/
def flushModbus (wt : Nat → Int) (silence : Int)
    (prevExtra : Option (List Nat)) (prevExtraTime : Int)
    (packetBuf : List Nat) (firstByteTime : Int) : FlushOut :=
  if packetBuf = [] then
    ⟨[], firstByteTime, prevExtra, prevExtraTime⟩
  else
    let extra :=
      if prevExtra ≠ none ∧ firstByteTime - prevExtraTime > silence then none
      else prevExtra
    let solo := SplitFramesPart packetBuf
    let combinedCase := solo.1 = [] ∧ extra ≠ none
    let parsed :=
      if combinedCase then SplitFramesPart (extra.getD [] ++ packetBuf)
      else solo
    let base := if combinedCase then prevExtraTime else firstByteTime
    if parsed.1 ≠ [] then
      ⟨parsed.1, base, parsed.2,
        if parsed.2 ≠ none then
          base + wt (concatData parsed.1).length
        else 0⟩
    else
      let fallback := if extra ≠ none then extra.getD [] ++ packetBuf else packetBuf
      let fallbackTime := if extra ≠ none then prevExtraTime else firstByteTime
      ⟨[Frame.mk fallback Direction.DirUnknown], fallbackTime, none, 0⟩

/-- Claim C5: on a flush of a nonempty buffer B at time T while a
remainder (R, tR) is held — (1) a stale remainder (T - tR beyond the
silence threshold) is discarded and never combined with B: the flush
behaves exactly as if no remainder were held; (2) whenever the solo
parse of B yields one or more frames, they are used with base time T
and the old remainder is discarded (the new remainder state comes from
B's parse alone); (3) the combined parse of R ++ B, with base time tR,
is attempted exactly when the solo parse yields zero frames and the
remainder is non-stale. -/
theorem flush_remainder_policy (wt : Nat → Int) (silence tR T : Int)
    (R B : List Nat) (hB : B ≠ []) :
    (T - tR > silence →
      flushModbus wt silence (some R) tR B T =
        flushModbus wt silence none tR B T) ∧
    ((SplitFramesPart B).1 ≠ [] →
      (flushModbus wt silence (some R) tR B T).frames =
          (SplitFramesPart B).1 ∧
        (flushModbus wt silence (some R) tR B T).baseTime = T ∧
        (flushModbus wt silence (some R) tR B T).newExtra =
          (SplitFramesPart B).2) ∧
    (¬ T - tR > silence → (SplitFramesPart B).1 = [] →
      (flushModbus wt silence (some R) tR B T).baseTime = tR ∧
        ((SplitFramesPart (R ++ B)).1 ≠ [] →
          (flushModbus wt silence (some R) tR B T).frames =
              (SplitFramesPart (R ++ B)).1 ∧
            (flushModbus wt silence (some R) tR B T).newExtra =
              (SplitFramesPart (R ++ B)).2) ∧
        ((SplitFramesPart (R ++ B)).1 = [] →
          (flushModbus wt silence (some R) tR B T).frames =
            [Frame.mk (R ++ B) Direction.DirUnknown])) := by
  refine ⟨?_, ?_, ?_⟩
  · intro hstale
    simp [flushModbus, if_neg hB, hstale]
  · intro hsolo
    simp [flushModbus, if_neg hB, hsolo]
  · intro hfresh hsolo
    by_cases hcomb : (SplitFramesPart (R ++ B)).1 = [] <;>
      simp [flushModbus, if_neg hB, hfresh, hsolo, hcomb]

/-- Witness for claim C5 in the stale case: silence 10, remainder held
at time 0, new buffer at time 100 — the flush ignores the remainder. -/
theorem flush_remainder_policy_witness :
    flushModbus (fun _ => 0) 10 (some [1]) 0 [0] 100 =
      flushModbus (fun _ => 0) 10 none 0 [0] 100 :=
  (flush_remainder_policy (fun _ => 0) 10 0 100 [1] [0] (by decide)).1
    (by decide)

/-- Embedding of `charBits` in `main.go`: total bits per character on
the wire (start + data + optional parity + stop). -/
def charBits (databits stopbitsN : Nat) (parity : String) : Nat :=
  (1 + databits + (if parity ≠ "none" then 1 else 0)) + stopbitsN

/-- Embedding of `defaultSilence` in `main.go`, in seconds: 3.5
character times.  Go computes this in float64 and truncates to whole
nanoseconds; the arithmetic is idealized as exact rationals. -/
def defaultSilence (baud databits stopbitsN : Nat) (parity : String) : ℚ :=
  (3.5 : ℚ) * ((charBits databits stopbitsN parity : ℚ) / (baud : ℚ))

/-- Embedding of `modbusSilence` in `main.go`, in seconds: wire time of
a maximum-length 256-byte frame plus a 25 ms margin. -/
def modbusSilence (baud databits stopbitsN : Nat) (parity : String) : ℚ :=
  ((256 * charBits databits stopbitsN parity : Nat) : ℚ) / (baud : ℚ) +
    25 / 1000

/-- Embedding of the threshold selection in `main.go` (`silenceUs` is
the explicit override flag in microseconds, 0 or negative meaning
absent), in seconds. -/
def silenceThreshold (silenceUs : ℚ) (modbusMode : Bool)
    (baud databits stopbitsN : Nat) (parity : String) : ℚ :=
  if silenceUs > 0 then silenceUs / 1000000
  else if modbusMode then modbusSilence baud databits stopbitsN parity
  else defaultSilence baud databits stopbitsN parity

/-- Claim C8: the silence threshold is the explicit positive override
when given; otherwise, in frame-splitting mode, 256 × bitsPerChar/baud
seconds plus the fixed 25 ms margin; otherwise 3.5 × bitsPerChar/baud
seconds — where bitsPerChar = 1 (start) + dataBits + (1 if parity
enabled else 0) + stopBits. -/
theorem silence_threshold_selection (silenceUs : ℚ) (modbusMode : Bool)
    (baud databits stopbitsN : Nat) (parity : String) :
    (silenceUs > 0 →
      silenceThreshold silenceUs modbusMode baud databits stopbitsN parity =
        silenceUs / 1000000) ∧
    (¬ silenceUs > 0 → modbusMode = true →
      silenceThreshold silenceUs modbusMode baud databits stopbitsN parity =
        256 * ((1 : ℚ) + databits + (if parity ≠ "none" then 1 else 0) +
          stopbitsN) / baud + 25 / 1000) ∧
    (¬ silenceUs > 0 → modbusMode = false →
      silenceThreshold silenceUs modbusMode baud databits stopbitsN parity =
        (7 / 2 : ℚ) * ((1 : ℚ) + databits + (if parity ≠ "none" then 1 else 0) +
          stopbitsN) / baud) := by
  have hbits : ((charBits databits stopbitsN parity : Nat) : ℚ) =
      (1 : ℚ) + databits + (if parity ≠ "none" then 1 else 0) + stopbitsN := by
    by_cases hp : parity ≠ "none" <;> simp [charBits, hp]
  refine ⟨?_, ?_, ?_⟩
  · intro hpos
    simp [silenceThreshold, hpos]
  · intro hpos hmode
    subst hmode
    simp only [silenceThreshold, if_neg hpos, ite_true]
    rw [modbusSilence]
    push_cast
    rw [hbits]
  · intro hpos hmode
    subst hmode
    simp only [silenceThreshold, if_neg hpos, Bool.false_eq_true, ite_false]
    rw [defaultSilence, hbits]
    norm_num
    ring

/-- Witness for claim C1 at the reference request frame of the test
suite (function code 0x03): the length returned is 8. -/
theorem classifier_table_correct_witness :
    2 ≤ ([2, 3, 0, 177, 0, 1, 212, 30] : List Nat).length ∧
    FrameLen [2, 3, 0, 177, 0, 1, 212, 30] = 8 :=
  ⟨by decide,
    (classifier_table_correct [2, 3, 0, 177, 0, 1, 212, 30]).2.2 (by decide)
      (by decide) (by decide)⟩

/-- Witness for claim C8: no override, Modbus mode, 19200 baud, 8 data
bits, even parity, 1 stop bit. -/
theorem silence_threshold_selection_witness :
    ¬ (0 : ℚ) > 0 ∧
    silenceThreshold 0 true 19200 8 1 "even" =
      256 * ((1 : ℚ) + ((8 : Nat) : ℚ) +
        (if ("even" : String) ≠ "none" then 1 else 0) + ((1 : Nat) : ℚ)) /
        ((19200 : Nat) : ℚ) + 25 / 1000 :=
  ⟨by norm_num,
    (silence_threshold_selection 0 true 19200 8 1 "even").2.1 (by norm_num) rfl⟩

end Mbpcap
